import Mathlib

/-!
Shallow embedding of the cantor crate: the Finite bijection contract
(src/lib.rs), the unsigned-width registry (src/uint.rs), the compressed
value wrapper (src/compress.rs), the dense array map (src/map.rs,
src/array.rs) and the bitmap set (src/set.rs).

Rust trait dictionaries become explicit structures, usize becomes Nat
(64-bit where the width matters), fallible or panicking operations return
Option (none models a panic or undefined behaviour where noted).
-/

namespace Cantor

/-- A Finite trait dictionary: COUNT, index_of, nth, plus the Ord
relation of the carrier (Rust `lt`), as used by the crate. -/
structure FiniteInst (K : Type) where
  count : Nat
  index_of : K → Nat
  nth : Nat → Option K
  lt : K → K → Bool

/-- `unsafe impl Finite for ()` in src/lib.rs. -/
def unitFinite : FiniteInst Unit where
  count := 1
  index_of := fun _ => 0
  nth := fun i => if i = 0 then some () else none
  lt := fun _ _ => false

/-- `unsafe impl Finite for bool` in src/lib.rs; `value as usize` and the
derived order false < true. -/
def boolFinite : FiniteInst Bool where
  count := 2
  index_of := fun v => if v then 1 else 0
  nth := fun i =>
    match i with
    | 0 => some false
    | 1 => some true
    | _ => none
  lt := fun a b => !a && b

/-- `unsafe impl Finite for u8` in src/lib.rs (identity mapping). -/
def u8Finite : FiniteInst (Fin 256) where
  count := 256
  index_of := fun v => v.val
  nth := fun i => if h : i < 256 then some ⟨i, h⟩ else none
  lt := fun a b => decide (a.val < b.val)

/-- `unsafe impl Finite for u16` in src/lib.rs (identity mapping). -/
def u16Finite : FiniteInst (Fin 65536) where
  count := 65536
  index_of := fun v => v.val
  nth := fun i => if h : i < 65536 then some ⟨i, h⟩ else none
  lt := fun a b => decide (a.val < b.val)

/-- `unsafe impl<T: Finite> Finite for Option<T>` in src/lib.rs.
For 0 < i < 1 + COUNT the source returns `Some(T::nth(index - 1))`
without unwrapping; the embedding keeps that exact shape. The order is
the derived one: None < Some(x), Some(x) < Some(y) iff x < y. -/
def optionFinite (T : FiniteInst K) : FiniteInst (Option K) where
  count := 1 + T.count
  index_of := fun v =>
    match v with
    | some x => 1 + T.index_of x
    | none => 0
  nth := fun i =>
    if i = 0 then some none
    else if i < 1 + T.count then some (T.nth (i - 1))
    else none
  lt := fun a b =>
    match a, b with
    | none, some _ => true
    | some x, some y => T.lt x y
    | _, none => false

/-- `unsafe impl<A: Finite, B: Finite> Finite for (A, B)` in src/lib.rs.
The two `.unwrap()` calls in `nth` panic when a component returns None;
a panic is modelled as the result none (see `pairNthPanics` for the
explicit panic predicate). The order is the derived lexicographic one. -/
def pairFinite [DecidableEq K] (A : FiniteInst K) (B : FiniteInst L) : FiniteInst (K × L) where
  count := A.count * B.count
  index_of := fun v => A.index_of v.1 * B.count + B.index_of v.2
  nth := fun i =>
    if i < A.count * B.count then
      match A.nth (i / B.count), B.nth (i % B.count) with
      | some a, some b => some (a, b)
      | _, _ => none
    else none
  lt := fun v w => A.lt v.1 w.1 || (decide (v.1 = w.1) && B.lt v.2 w.2)

/-- True exactly when `nth` for the pair instance would evaluate one of
its two `.unwrap()` calls on a None, i.e. would panic. -/
def pairNthPanics (A : FiniteInst K) (B : FiniteInst L) (i : Nat) : Bool :=
  decide (i < A.count * B.count) &&
    ((A.nth (i / B.count)).isNone || (B.nth (i % B.count)).isNone)

/-- The Finite contract stated in src/lib.rs (doc comment and Safety
section): index_of lands in [0, COUNT), nth inverts index_of, every
index below COUNT is hit exactly by its value, and indices at or above
COUNT give None. -/
structure Conforms (F : FiniteInst K) : Prop where
  index_lt : ∀ v, F.index_of v < F.count
  nth_index : ∀ v, F.nth (F.index_of v) = some v
  nth_inv : ∀ i, i < F.count → ∃ v, F.nth i = some v ∧ F.index_of v = i
  nth_oob : ∀ i, F.count ≤ i → F.nth i = none

/-- The two round-trip laws of the contract, as claimed. -/
def RoundTrip (F : FiniteInst K) : Prop :=
  (∀ v, F.nth (F.index_of v) = some v) ∧
    (∀ i, i < F.count → ∃ v, F.nth i = some v ∧ F.index_of v = i)

/-- The order homomorphism stated on the Finite trait in src/lib.rs:
index_of a < index_of b iff a < b. -/
def OrderIso (F : FiniteInst K) : Prop :=
  ∀ a b, F.lt a b = true ↔ F.index_of a < F.index_of b

/-! Unsigned-width registry, src/uint.rs. -/

/-- `usize::leading_zeros` for the 64-bit usize of the crate. -/
def leading_zeros (n : Nat) : Nat := 64 - Nat.size n

/-- `pub const fn log2(n: usize) -> usize { (64 - n.leading_zeros()) as usize }`
in src/uint.rs. -/
def log2 (n : Nat) : Nat := 64 - leading_zeros n

/-- The `impl_uint_for!` ladder in src/uint.rs: the bit width of the
backing type `Uint<n>`; none when no HasUint instance exists (n > 128). -/
def uintBits (n : Nat) : Option Nat :=
  if n = 0 then some 0
  else if n ≤ 8 then some 8
  else if n ≤ 16 then some 16
  else if n ≤ 32 then some 32
  else if n ≤ 64 then some 64
  else if n ≤ 128 then some 128
  else none

/-- `Unsigned::from_usize_unchecked`: `source as $t`, a truncating cast
to the backing width (the u0 case is the 0-bit width, everything maps
to 0, which `n % 2 ^ 0` also gives). -/
def from_usize_unchecked (bits n : Nat) : Nat := n % 2 ^ bits

/-- `Unsigned::ones`: `(1 << n) - 1` on the backing type. The shift
overflows exactly when `n` is at least the bit width (a panic in debug
builds), modelled as none. The u0 implementation returns u0 with no
shift. -/
def Unsigned.ones (bits n : Nat) : Option Nat :=
  if bits = 0 then some 0
  else if n < bits then some (2 ^ n - 1)
  else none

/-- `Unsigned::one_at`: `1 << i`, overflowing (none) when i is at least
the bit width; the u0 implementation returns u0. -/
def Unsigned.one_at (bits i : Nat) : Option Nat :=
  if bits = 0 then some 0
  else if i < bits then some (2 ^ i)
  else none

/-- Bitwise complement `!x` within the backing width. -/
def Unsigned.unot (bits x : Nat) : Nat := x ^^^ (2 ^ bits - 1)

/-- `trailing_zeros` of the backing type, by scanning the low bit;
returns the full width for 0, as the hardware instruction does. -/
def trailingZeros (fuel x : Nat) : Nat :=
  match fuel with
  | 0 => 0
  | fuel + 1 => if x % 2 = 1 then 0 else trailingZeros fuel (x / 2) + 1

/-- `Unsigned::first_one`: trailing_zeros, turned into None when it
equals the full width. -/
def Unsigned.first_one (bits x : Nat) : Option Nat :=
  let r := trailingZeros bits x
  if r < bits then some r else none

/-- `Unsigned::last_one`: BITS - leading_zeros - 1, None when
leading_zeros equals the full width; leading_zeros of the backing value
is width minus bit length. -/
def Unsigned.last_one (bits x : Nat) : Option Nat :=
  let lz := bits - Nat.size x
  if lz < bits then some (bits - lz - 1) else none

/-! Compressed value wrapper, src/compress.rs. `Compress<T>` holds the
index in `Uint<log2(COUNT - 1)>`; it is modelled by the Nat value of
that stored integer. -/

/-- `Compress::new`: store `index_of` through the truncating cast. -/
def Compress.new (T : FiniteInst K) (bits : Nat) (v : K) : Nat :=
  from_usize_unchecked bits (T.index_of v)

/-- `Compress::expand`: `T::nth(self.0.to_usize()).unwrap_unchecked()`;
the embedding keeps the Option so that the claimed infallibility is the
statement that the result is some. -/
def Compress.expand (T : FiniteInst K) (c : Nat) : Option K := T.nth c

/-- `unsafe impl<T: CompressFinite> Finite for Compress<T>`. -/
def compressFinite (T : FiniteInst K) (bits : Nat) : FiniteInst Nat where
  count := T.count
  index_of := fun c => c
  nth := fun i => if i < T.count then some (from_usize_unchecked bits i) else none
  lt := fun a b => decide (a < b)

/-! Bitmap set, src/set.rs. The state is the Nat value of the backing
bitmap of width `bits`; the invariant of interest is that every bit at
position COUNT or above is zero, i.e. the value is below 2 ^ COUNT. -/

/-- The invariant: all bits at positions at or above count are zero. -/
def BitmapInv (count x : Nat) : Prop := x < 2 ^ count

/-- `BitmapSet::none`: `T::Bitmap::ZERO`. -/
def BitmapSet.noneSet : Nat := 0

/-- `BitmapSet::all`: `T::Bitmap::ones(T::COUNT)` (none on shift overflow). -/
def BitmapSet.all (bits count : Nat) : Option Nat := Unsigned.ones bits count

/-- `BitmapSet::only`: `one_at(index_of(value))`, given the index. -/
def BitmapSet.only (bits idx : Nat) : Option Nat := Unsigned.one_at bits idx

/-- `Set::include` for BitmapSet: or with `one_at(index_of(value))`. -/
def BitmapSet.includeVal (bits x idx : Nat) : Option Nat :=
  (Unsigned.one_at bits idx).map (fun m => x ||| m)

/-- `Set::exclude` for BitmapSet: and with the complement of
`one_at(index_of(value))`. -/
def BitmapSet.excludeVal (bits x idx : Nat) : Option Nat :=
  (Unsigned.one_at bits idx).map (fun m => x &&& Unsigned.unot bits m)

/-- `BitAnd` for BitmapSet. -/
def BitmapSet.and (x y : Nat) : Nat := x &&& y

/-- `BitOr` for BitmapSet. -/
def BitmapSet.or (x y : Nat) : Nat := x ||| y

/-- `BitXor` for BitmapSet. -/
def BitmapSet.xor (x y : Nat) : Nat := x ^^^ y

/-- `Sub` for BitmapSet: `self.0 & !rhs.0`. -/
def BitmapSet.diff (bits x y : Nat) : Nat := x &&& Unsigned.unot bits y

/-- The loop body of `BitmapSet::new`: walk the given indices, or-ing in
`one_at(i)` when the membership function holds at `nth(i)`; none models
the unchecked unwrap of `nth` or an overflowing `one_at`. -/
def bitmapNewGo (bits : Nat) (T : FiniteInst K) (f : K → Bool) :
    List Nat → Nat → Option Nat
  | [], acc => some acc
  | i :: rest, acc =>
    match T.nth i with
    | none => none
    | some v =>
      if f v then
        match Unsigned.one_at bits i with
        | none => none
        | some m => bitmapNewGo bits T f rest (acc ||| m)
      else bitmapNewGo bits T f rest acc

/-- `BitmapSet::new`: the loop over `0..T::COUNT` starting from ZERO. -/
def BitmapSet.new (bits : Nat) (T : FiniteInst K) (f : K → Bool) : Option Nat :=
  bitmapNewGo bits T f (List.range T.count) 0

/-- One step of the ascending iterator (`Iterator::next`): find the
first set bit, clear it; returns the index and the new bitmap. -/
def BitmapSet.next (bits x : Nat) : Option (Nat × Nat) :=
  match Unsigned.first_one bits x with
  | none => none
  | some i =>
    match Unsigned.one_at bits i with
    | none => none
    | some m => some (i, x &&& Unsigned.unot bits m)

/-- One step of the descending iterator (`DoubleEndedIterator::next_back`):
find the last set bit, clear it. -/
def BitmapSet.nextBack (bits x : Nat) : Option (Nat × Nat) :=
  match Unsigned.last_one bits x with
  | none => none
  | some i =>
    match Unsigned.one_at bits i with
    | none => none
    | some m => some (i, x &&& Unsigned.unot bits m)

/-- `unsafe impl<T: BitmapFinite> Finite for BitmapSet<T>`: COUNT is
`1 << T::COUNT`, index_of is the raw bit pattern, nth is the truncating
cast guarded by the range check. -/
def bitmapSetFinite (bits count : Nat) : FiniteInst Nat where
  count := 2 ^ count
  index_of := fun s => s
  nth := fun i => if i < 2 ^ count then some (from_usize_unchecked bits i) else none
  lt := fun a b => decide (a < b)

/-! Dense array map, src/map.rs and src/array.rs. The storage is a list
of length COUNT; effects of the initialisation function are modelled by
explicit state threading. -/

/-- The element-by-element initialisation loop behind array_init. -/
def initGo (f : Nat → S → S × V) : List Nat → S → S × List V
  | [], s => (s, [])
  | i :: rest, s =>
    let p := f i s
    let q := initGo f rest p.1
    (q.1, p.2 :: q.2)

/-- Modelled from the spec: the out-of-crate `array_init::array_init`
used by `Array for [T; N]` in src/array.rs initialises the array by
invoking the function once per index in ascending order 0, 1, ..., N-1
(spec 4.4: side effects are observed in exactly that order). -/
def array_init (n : Nat) (f : Nat → S → S × V) (s : S) : S × List V :=
  initGo f (List.range n) s

/-- The closure `|k| f(K::nth(k).unwrap_unchecked())` passed by
`ArrayMap::new`; the undefined behaviour of unwrapping a None is
modelled as a none entry with the state unchanged. -/
def newInner (T : FiniteInst K) (f : K → S → S × V) : Nat → S → S × Option V :=
  fun i s =>
    match T.nth i with
    | some k => ((f k s).1, some (f k s).2)
    | none => (s, none)

/-- `ArrayMap::new`: array_init over COUNT slots. -/
def ArrayMap.new (T : FiniteInst K) (f : K → S → S × V) (s : S) : S × List (Option V) :=
  array_init T.count (newInner T f) s

/-- `Index for ArrayMap`: `get_unchecked(index_of(key))`; an
out-of-bounds access (impossible under the contract) is none. -/
def ArrayMap.get (T : FiniteInst K) (m : List V) (k : K) : Option V :=
  m[T.index_of k]?

/-- `IndexMut for ArrayMap` used as assignment `map[k] = x`:
write through `get_unchecked_mut(index_of(key))`. -/
def ArrayMap.set (T : FiniteInst K) (m : List V) (k : K) (x : V) : List V :=
  m.set (T.index_of k) x

/-- The order homomorphism in its nth form (spec 8): consecutive
indices decode to values in strictly increasing order. -/
def SuccOrdered (F : FiniteInst K) : Prop :=
  ∀ i, i + 1 < F.count → ∃ a b, F.nth i = some a ∧ F.nth (i + 1) = some b ∧ F.lt a b = true

/-! Helper lemmas about the contract. -/

theorem Conforms.roundTrip {F : FiniteInst K} (h : Conforms F) : RoundTrip F :=
  ⟨h.nth_index, h.nth_inv⟩

theorem Conforms.index_inj {F : FiniteInst K} (h : Conforms F) {a b : K}
    (he : F.index_of a = F.index_of b) : a = b := by
  have ha := h.nth_index a
  have hb := h.nth_index b
  rw [he, hb] at ha
  exact (Option.some_inj.mp ha).symm

theorem unitFinite_conforms : Conforms unitFinite := by
  refine ⟨fun v => ?_, fun v => ?_, fun i hi => ?_, fun i hi => ?_⟩
  · exact Nat.zero_lt_one
  · rfl
  · have : i = 0 := by simpa [unitFinite] using hi
    exact ⟨(), by simp [unitFinite, this], by simp [unitFinite, this]⟩
  · have : i ≠ 0 := by simp [unitFinite] at hi ⊢; omega
    simp [unitFinite, this]

theorem boolFinite_conforms : Conforms boolFinite := by
  refine ⟨fun v => ?_, fun v => ?_, fun i hi => ?_, fun i hi => ?_⟩
  · cases v <;> simp [boolFinite]
  · cases v <;> rfl
  · simp only [boolFinite] at hi
    interval_cases i
    · exact ⟨false, rfl, rfl⟩
    · exact ⟨true, rfl, rfl⟩
  · simp only [boolFinite] at hi
    obtain ⟨j, rfl⟩ : ∃ j, i = j + 2 := ⟨i - 2, by omega⟩
    rfl

theorem u8Finite_conforms : Conforms u8Finite := by
  refine ⟨fun v => v.isLt, fun v => ?_, fun i hi => ?_, fun i hi => ?_⟩
  · simp [u8Finite]
  · have hi2 : i < 256 := by simpa [u8Finite] using hi
    exact ⟨⟨i, hi2⟩, by simp [u8Finite, hi2], rfl⟩
  · simp only [u8Finite] at hi ⊢
    rw [dif_neg (by omega)]

theorem u16Finite_conforms : Conforms u16Finite := by
  refine ⟨fun v => v.isLt, fun v => ?_, fun i hi => ?_, fun i hi => ?_⟩
  · simp [u16Finite]
  · have hi2 : i < 65536 := by simpa [u16Finite] using hi
    exact ⟨⟨i, hi2⟩, by simp [u16Finite, hi2], rfl⟩
  · simp only [u16Finite] at hi ⊢
    rw [dif_neg (by omega)]

theorem optionFinite_conforms {T : FiniteInst K} (hT : Conforms T) :
    Conforms (optionFinite T) := by
  refine ⟨fun v => ?_, fun v => ?_, fun i hi => ?_, fun i hi => ?_⟩
  · cases v with
    | none => simp [optionFinite]
    | some x => simpa [optionFinite] using hT.index_lt x
  · cases v with
    | none => rfl
    | some x =>
      have hx := hT.index_lt x
      simp only [optionFinite, Nat.add_eq_zero, if_neg, Nat.add_sub_cancel_left]
      rw [if_neg (by omega), if_pos (by omega)]
      simp [hT.nth_index x]
  · simp only [optionFinite] at hi ⊢
    match i with
    | 0 => exact ⟨none, rfl, rfl⟩
    | j + 1 =>
      have hj : j < T.count := by omega
      obtain ⟨v, hv, hvi⟩ := hT.nth_inv j hj
      refine ⟨some v, ?_, ?_⟩
      · rw [if_neg (by omega), if_pos (by omega)]
        simp [hv]
      · simp [hvi, Nat.add_comm]
  · simp only [optionFinite] at hi ⊢
    rw [if_neg (by omega), if_neg (by omega)]

theorem pairFinite_conforms [DecidableEq K] {A : FiniteInst K} {B : FiniteInst L}
    (hA : Conforms A) (hB : Conforms B) : Conforms (pairFinite A B) := by
  refine ⟨fun v => ?_, fun v => ?_, fun i hi => ?_, fun i hi => ?_⟩
  · have h1 := hA.index_lt v.1
    have h2 := hB.index_lt v.2
    simp only [pairFinite]
    calc A.index_of v.1 * B.count + B.index_of v.2
        < A.index_of v.1 * B.count + B.count := by omega
      _ = (A.index_of v.1 + 1) * B.count := by ring
      _ ≤ A.count * B.count := Nat.mul_le_mul_right _ (by omega)
  · have h1 := hA.index_lt v.1
    have h2 := hB.index_lt v.2
    have hBpos : 0 < B.count := by omega
    have hlt : A.index_of v.1 * B.count + B.index_of v.2 < A.count * B.count := by
      calc A.index_of v.1 * B.count + B.index_of v.2
          < A.index_of v.1 * B.count + B.count := by omega
        _ = (A.index_of v.1 + 1) * B.count := by ring
        _ ≤ A.count * B.count := Nat.mul_le_mul_right _ (by omega)
    have hdiv : (A.index_of v.1 * B.count + B.index_of v.2) / B.count = A.index_of v.1 := by
      rw [Nat.mul_comm (A.index_of v.1) B.count, Nat.mul_add_div hBpos,
        Nat.div_eq_of_lt h2, Nat.add_zero]
    have hmod : (A.index_of v.1 * B.count + B.index_of v.2) % B.count = B.index_of v.2 := by
      rw [Nat.mul_comm (A.index_of v.1) B.count, Nat.mul_add_mod, Nat.mod_eq_of_lt h2]
    simp only [pairFinite, if_pos hlt, hdiv, hmod, hA.nth_index v.1, hB.nth_index v.2]
  · have hBpos : 0 < B.count := by
      rcases Nat.eq_zero_or_pos B.count with h | h
      · exfalso
        simp only [pairFinite, h, Nat.mul_zero] at hi
        omega
      · exact h
    simp only [pairFinite] at hi
    have hdivlt : i / B.count < A.count := (Nat.div_lt_iff_lt_mul hBpos).mpr hi
    have hmodlt : i % B.count < B.count := Nat.mod_lt _ hBpos
    obtain ⟨a, ha, hai⟩ := hA.nth_inv _ hdivlt
    obtain ⟨b, hb, hbi⟩ := hB.nth_inv _ hmodlt
    refine ⟨(a, b), ?_, ?_⟩
    · simp [pairFinite, if_pos hi, ha, hb]
    · simp only [pairFinite, hai, hbi]
      rw [Nat.mul_comm, Nat.div_add_mod]
  · simp only [pairFinite] at hi ⊢
    rw [if_neg (by omega)]

theorem boolFinite_orderIso : OrderIso boolFinite := by
  intro a b
  cases a <;> cases b <;> simp [boolFinite, OrderIso]

theorem optionFinite_orderIso {T : FiniteInst K} (hO : OrderIso T) :
    OrderIso (optionFinite T) := by
  intro a b
  cases a <;> cases b <;> simp [optionFinite, hO _ _]

/-- Row-major strict monotonicity in the high digit. -/
theorem rowMajorLt {i j b d c : Nat} (h1 : i < j) (h2 : b < c) :
    i * c + b < j * c + d := by
  calc i * c + b < i * c + c := by omega
    _ = (i + 1) * c := by ring
    _ ≤ j * c := Nat.mul_le_mul_right _ (by omega)
    _ ≤ j * c + d := Nat.le_add_right _ _

theorem pairFinite_orderIso [DecidableEq K] {A : FiniteInst K} {B : FiniteInst L}
    (hA : Conforms A) (hOA : OrderIso A) (hB : Conforms B) (hOB : OrderIso B) :
    OrderIso (pairFinite A B) := by
  rintro ⟨a1, a2⟩ ⟨b1, b2⟩
  simp only [pairFinite, Bool.or_eq_true, Bool.and_eq_true, decide_eq_true_eq]
  constructor
  · rintro (hlt | ⟨rfl, hlt⟩)
    · exact rowMajorLt ((hOA _ _).mp hlt) (hB.index_lt a2)
    · have := (hOB _ _).mp hlt
      omega
  · intro hsum
    rcases Nat.lt_trichotomy (A.index_of a1) (A.index_of b1) with h | h | h
    · exact Or.inl ((hOA _ _).mpr h)
    · have : a1 = b1 := hA.index_inj h
      subst this
      refine Or.inr ⟨rfl, (hOB _ _).mpr ?_⟩
      omega
    · have hx : A.index_of b1 * B.count + B.index_of b2 <
          A.index_of a1 * B.count + B.index_of a2 := rowMajorLt h (hB.index_lt b2)
      omega

theorem conforms_orderIso_succOrdered {F : FiniteInst K} (hc : Conforms F)
    (ho : OrderIso F) : SuccOrdered F := by
  intro i hi
  obtain ⟨a, ha, hai⟩ := hc.nth_inv i (by omega)
  obtain ⟨b, hb, hbi⟩ := hc.nth_inv (i + 1) hi
  exact ⟨a, b, ha, hb, (ho a b).mpr (by omega)⟩

/-! Claim theorems. -/

/-- C1: for every Finite instance defined in the crate (unit, bool, u8,
u16, and the Option and pair compositions with conforming components),
nth(index_of(v)) = v for every value v and index_of(nth(i)) = i for
every i < COUNT. -/
theorem c1_finite_roundtrip :
    RoundTrip unitFinite ∧ RoundTrip boolFinite ∧ RoundTrip u8Finite ∧ RoundTrip u16Finite ∧
      (∀ (K : Type) (T : FiniteInst K), Conforms T → RoundTrip (optionFinite T)) ∧
      (∀ (K L : Type) [DecidableEq K] (A : FiniteInst K) (B : FiniteInst L),
        Conforms A → Conforms B → RoundTrip (pairFinite A B)) :=
  ⟨unitFinite_conforms.roundTrip, boolFinite_conforms.roundTrip,
    u8Finite_conforms.roundTrip, u16Finite_conforms.roundTrip,
    fun _ _ hT => (optionFinite_conforms hT).roundTrip,
    fun _ _ _ _ _ hA hB => (pairFinite_conforms hA hB).roundTrip⟩

/-- C1 witness: the composed instances evaluated at concrete inputs. -/
theorem c1_witness :
    (optionFinite boolFinite).nth ((optionFinite boolFinite).index_of (some true)) =
        some (some true) ∧
      (pairFinite boolFinite boolFinite).nth
          ((pairFinite boolFinite boolFinite).index_of (true, false)) = some (true, false) :=
  ⟨(c1_finite_roundtrip.2.2.2.2.1 Bool boolFinite boolFinite_conforms).1 (some true),
    (c1_finite_roundtrip.2.2.2.2.2 Bool Bool boolFinite boolFinite
      boolFinite_conforms boolFinite_conforms).1 (true, false)⟩

/-- C9: every Finite implementation in the crate returns the sentinel
None from nth at every index at or above COUNT, and the pair
implementation (the one whose nth contains unwrap calls) evaluates no
unwrap there, so no failure can occur. -/
theorem c9_boundary_absence :
    (∀ i, unitFinite.count ≤ i → unitFinite.nth i = none) ∧
      (∀ i, boolFinite.count ≤ i → boolFinite.nth i = none) ∧
      (∀ i, u8Finite.count ≤ i → u8Finite.nth i = none) ∧
      (∀ i, u16Finite.count ≤ i → u16Finite.nth i = none) ∧
      (∀ (K : Type) (T : FiniteInst K) (i : Nat),
        (optionFinite T).count ≤ i → (optionFinite T).nth i = none) ∧
      (∀ (K L : Type) [DecidableEq K] (A : FiniteInst K) (B : FiniteInst L) (i : Nat),
        (pairFinite A B).count ≤ i →
          (pairFinite A B).nth i = none ∧ pairNthPanics A B i = false) ∧
      (∀ (K : Type) (T : FiniteInst K) (bits i : Nat),
        (compressFinite T bits).count ≤ i → (compressFinite T bits).nth i = none) ∧
      (∀ bits count i : Nat,
        (bitmapSetFinite bits count).count ≤ i → (bitmapSetFinite bits count).nth i = none) := by
  refine ⟨fun i hi => unitFinite_conforms.nth_oob i hi,
    fun i hi => boolFinite_conforms.nth_oob i hi,
    fun i hi => u8Finite_conforms.nth_oob i hi,
    fun i hi => u16Finite_conforms.nth_oob i hi,
    fun _ T i hi => ?_, fun _ _ _ A B i hi => ⟨?_, ?_⟩, fun _ T bits i hi => ?_,
    fun bits count i hi => ?_⟩
  · simp only [optionFinite] at hi ⊢
    rw [if_neg (by omega), if_neg (by omega)]
  · simp only [pairFinite] at hi ⊢
    rw [if_neg (by omega)]
  · simp only [pairFinite] at hi
    simp only [pairNthPanics, Bool.and_eq_false_iff, decide_eq_false_iff_not]
    exact Or.inl (by omega)
  · simp only [compressFinite] at hi ⊢
    rw [if_neg (by omega)]
  · simp only [bitmapSetFinite] at hi ⊢
    rw [if_neg (by omega)]

/-- C9 witness: each implementation evaluated just past its COUNT. -/
theorem c9_witness :
    unitFinite.nth 1 = none ∧ boolFinite.nth 2 = none ∧ u8Finite.nth 256 = none ∧
      u16Finite.nth 65536 = none ∧ (optionFinite boolFinite).nth 3 = none ∧
      (pairFinite boolFinite boolFinite).nth 4 = none ∧
      pairNthPanics boolFinite boolFinite 4 = false ∧
      (compressFinite boolFinite 8).nth 2 = none ∧
      (bitmapSetFinite 8 2).nth 4 = none := by
  have h := c9_boundary_absence
  exact ⟨h.1 1 (by decide), h.2.1 2 (by decide), h.2.2.1 256 (by decide),
    h.2.2.2.1 65536 (by decide), h.2.2.2.2.1 Bool boolFinite 3 (by decide),
    (h.2.2.2.2.2.1 Bool Bool boolFinite boolFinite 4 (by decide)).1,
    (h.2.2.2.2.2.1 Bool Bool boolFinite boolFinite 4 (by decide)).2,
    h.2.2.2.2.2.2.1 Bool boolFinite 8 2 (by decide),
    h.2.2.2.2.2.2.2 8 2 4 (by decide)⟩

/-- C5: the Option and pair compositions are order-preserving under the
derived orders, assuming the components are conforming order-preserving
bijections: a < b implies index_of a < index_of b, and equivalently
nth(i) < nth(i+1) for consecutive valid indices. -/
theorem c5_order_preserving :
    (∀ (K : Type) (T : FiniteInst K), Conforms T → OrderIso T →
      (∀ a b, (optionFinite T).lt a b = true →
        (optionFinite T).index_of a < (optionFinite T).index_of b) ∧
        SuccOrdered (optionFinite T)) ∧
      (∀ (K L : Type) [DecidableEq K] (A : FiniteInst K) (B : FiniteInst L),
        Conforms A → OrderIso A → Conforms B → OrderIso B →
        (∀ a b, (pairFinite A B).lt a b = true →
          (pairFinite A B).index_of a < (pairFinite A B).index_of b) ∧
          SuccOrdered (pairFinite A B)) := by
  constructor
  · intro K T hc ho
    have hoc := optionFinite_conforms hc
    have hoo := optionFinite_orderIso ho
    exact ⟨fun a b h => (hoo a b).mp h, conforms_orderIso_succOrdered hoc hoo⟩
  · intro K L _ A B hcA hoA hcB hoB
    have hpc := pairFinite_conforms hcA hcB
    have hpo := pairFinite_orderIso hcA hoA hcB hoB
    exact ⟨fun a b h => (hpo a b).mp h, conforms_orderIso_succOrdered hpc hpo⟩

/-- C5 witness: the composed orders evaluated on concrete values. -/
theorem c5_witness :
    (optionFinite boolFinite).index_of none <
        (optionFinite boolFinite).index_of (some false) ∧
      (∃ a b, (pairFinite boolFinite boolFinite).nth 0 = some a ∧
        (pairFinite boolFinite boolFinite).nth 1 = some b ∧
        (pairFinite boolFinite boolFinite).lt a b = true) :=
  ⟨(c5_order_preserving.1 Bool boolFinite boolFinite_conforms boolFinite_orderIso).1
      none (some false) (by decide),
    (c5_order_preserving.2 Bool Bool boolFinite boolFinite boolFinite_conforms
      boolFinite_orderIso boolFinite_conforms boolFinite_orderIso).2 0 (by decide)⟩

/-! The registry and log2 helper lemmas. -/

theorem uintBits_ge {n w : Nat} (h : uintBits n = some w) : n ≤ w := by
  simp only [uintBits] at h
  split_ifs at h <;> (cases h; omega)

theorem log2_eq_size {n : Nat} (h : n < 2 ^ 64) : log2 n = Nat.size n := by
  have hle : Nat.size n ≤ 64 := Nat.size_le.mpr h
  simp only [log2, leading_zeros]
  omega

theorem log2_one : log2 1 = 1 := by
  simp [log2, leading_zeros, Nat.size_one]

/-- C3 counterexample: the helper gives log2(1) = 1, not the claimed 0. -/
theorem c3_counterexample : log2 1 = 1 ∧ log2 1 ≠ 0 :=
  ⟨log2_one, by rw [log2_one]; omega⟩

/-- C3 (amended): for n below 2^64 (usize), log2 returns the bit length
of n, that is 0 for n = 0 and floor(log2 n) + 1 for n >= 1 (so log2 1 = 1,
not 0); at the call site log2(COUNT - 1) this equals the ceiling of
log2(COUNT), the number of bits needed for indices 0..COUNT-1. -/
theorem c3_log2_bitlength :
    log2 0 = 0 ∧
      (∀ n, 0 < n → n < 2 ^ 64 → log2 n = Nat.log 2 n + 1) ∧
      (∀ c, 0 < c → c ≤ 2 ^ 64 → log2 (c - 1) = Nat.clog 2 c) := by
  refine ⟨by simp [log2, leading_zeros, Nat.size_zero], fun n hn hlt => ?_, fun c hc hle => ?_⟩
  · rw [log2_eq_size hlt]
    refine Nat.le_antisymm (Nat.size_le.mpr (Nat.lt_pow_succ_log_self (by norm_num) n)) ?_
    exact Nat.lt_size.mpr (Nat.pow_log_le_self 2 (by omega))
  · have hlt : c - 1 < 2 ^ 64 := by omega
    rw [log2_eq_size hlt]
    refine Nat.le_antisymm (Nat.size_le.mpr ?_) ?_
    · have hcc : c ≤ 2 ^ Nat.clog 2 c :=
        (Nat.le_pow_iff_clog_le (by norm_num)).mpr (Nat.le_refl _)
      omega
    · refine (Nat.le_pow_iff_clog_le (by norm_num)).mp ?_
      have := Nat.lt_size_self (c - 1)
      omega

/-- C3 witness: the amended statement at c = 3. -/
theorem c3_witness : log2 (3 - 1) = Nat.clog 2 3 :=
  c3_log2_bitlength.2.2 3 (by norm_num) (by norm_num)

/-- C2 (code bug evaluation): a type with COUNT = 8 is backed by
Uint<8> = u8, whose full width is 8 bits, and BitmapSet::all computes
ones(8) = (1u8 << 8) - 1: the shift overflows (a panic in debug builds)
instead of producing the expected 0xFF; any COUNT strictly below the
backing width is handled correctly. -/
theorem c2_all_shift_overflow :
    uintBits 8 = some 8 ∧ BitmapSet.all 8 8 = none ∧ BitmapSet.all 8 7 = some 127 := by
  refine ⟨by decide, by decide, by decide⟩

/-- The index stored by Compress::new equals index_of exactly: the
registry width always covers the bit length of COUNT - 1, so the
truncating cast loses nothing. -/
theorem compress_store_eq (T : FiniteInst K) (v : K) (bits : Nat) (hc : Conforms T)
    (hcount : T.count ≤ 2 ^ 64) (hbits : uintBits (log2 (T.count - 1)) = some bits) :
    Compress.new T bits v = T.index_of v := by
  have hvlt := hc.index_lt v
  have hcm1 : T.count - 1 < 2 ^ 64 := by omega
  have hs : log2 (T.count - 1) = Nat.size (T.count - 1) := log2_eq_size hcm1
  have hn : Nat.size (T.count - 1) ≤ bits := by
    have := uintBits_ge hbits
    omega
  have hidx : T.index_of v < 2 ^ bits := by
    have h2 : T.count - 1 < 2 ^ Nat.size (T.count - 1) := Nat.lt_size_self _
    have h3 : (2 : Nat) ^ Nat.size (T.count - 1) ≤ 2 ^ bits :=
      Nat.pow_le_pow_right (by norm_num) hn
    omega
  simp [Compress.new, from_usize_unchecked, Nat.mod_eq_of_lt hidx]

/-- C4: for every registry-compressible conforming type, the stored
index is index_of v (below COUNT), so the nth call inside expand is
infallible and expand(compress(v)) = v; the COUNT = 1 case stores in
the zero-bit integer and still round-trips. -/
theorem c4_compress_roundtrip (T : FiniteInst K) (v : K) (bits : Nat) (hc : Conforms T)
    (hcount : T.count ≤ 2 ^ 64) (hbits : uintBits (log2 (T.count - 1)) = some bits) :
    Compress.new T bits v = T.index_of v ∧ Compress.new T bits v < T.count ∧
      Compress.expand T (Compress.new T bits v) = some v := by
  have hstore := compress_store_eq T v bits hc hcount hbits
  refine ⟨hstore, ?_, ?_⟩
  · rw [hstore]
    exact hc.index_lt v
  · simp only [Compress.expand]
    rw [hstore]
    exact hc.nth_index v

/-- C4 witness: compressing true : bool through the registry (bits for
COUNT = 2 is log2(1) = 1, backed by u8). -/
theorem c4_witness :
    Compress.new boolFinite 8 true = boolFinite.index_of true ∧
      Compress.new boolFinite 8 true < boolFinite.count ∧
      Compress.expand boolFinite (Compress.new boolFinite 8 true) = some true :=
  c4_compress_roundtrip boolFinite true 8 boolFinite_conforms (by decide)
    (by show uintBits (log2 1) = some 8; rw [log2_one]; decide)

/-- C10: compression preserves the value ordering: under the derived
Ord on Compress (comparison of the stored indices), compress(a) is
below compress(b) exactly when a is below b in the underlying order. -/
theorem c10_compress_order (T : FiniteInst K) (a b : K) (bits : Nat) (hc : Conforms T)
    (ho : OrderIso T) (hcount : T.count ≤ 2 ^ 64)
    (hbits : uintBits (log2 (T.count - 1)) = some bits) :
    (compressFinite T bits).lt (Compress.new T bits a) (Compress.new T bits b) = true ↔
      T.lt a b = true := by
  rw [compress_store_eq T a bits hc hcount hbits, compress_store_eq T b bits hc hcount hbits]
  simp [compressFinite, ho a b]

/-- C10 witness: the two bool values through the registry width. -/
theorem c10_witness :
    (compressFinite boolFinite 8).lt (Compress.new boolFinite 8 false)
        (Compress.new boolFinite 8 true) = true ↔ boolFinite.lt false true = true :=
  c10_compress_order boolFinite false true 8 boolFinite_conforms boolFinite_orderIso
    (by decide) (by show uintBits (log2 1) = some 8; rw [log2_one]; decide)

/-! Bitmap invariant helpers. -/

theorem one_at_lt_pow {bits i count m : Nat} (hi : i < count)
    (h : Unsigned.one_at bits i = some m) : m < 2 ^ count := by
  simp only [Unsigned.one_at] at h
  split_ifs at h <;> cases h
  · exact Nat.pos_pow_of_pos _ (by norm_num)
  · exact Nat.pow_lt_pow_right (by norm_num) hi

theorem and_lt_pow {x y count : Nat} (hx : x < 2 ^ count) : x &&& y < 2 ^ count :=
  Nat.lt_of_le_of_lt Nat.and_le_left hx

theorem bitmapNewGo_inv {bits : Nat} {T : FiniteInst K} {f : K → Bool} :
    ∀ (l : List Nat) (acc m : Nat), (∀ i ∈ l, i < T.count) → acc < 2 ^ T.count →
      bitmapNewGo bits T f l acc = some m → m < 2 ^ T.count := by
  intro l
  induction l with
  | nil =>
    intro acc m _ hacc h
    simp only [bitmapNewGo] at h
    cases h
    exact hacc
  | cons i rest ih =>
    intro acc m hmem hacc h
    have hic : i < T.count := hmem i (List.mem_cons_self i rest)
    simp only [bitmapNewGo] at h
    split at h
    · cases h
    · split at h
      · split at h
        · cases h
        · rename_i mask hmask
          exact ih (acc ||| mask) m (fun j hj => hmem j (List.mem_cons_of_mem i hj))
            (Nat.or_lt_two_pow hacc (one_at_lt_pow hic hmask)) h
      · exact ih acc m (fun j hj => hmem j (List.mem_cons_of_mem i hj)) hacc h

/-- C6: every BitmapSet operation preserves the invariant that all bits
at positions at or above COUNT are zero: the sets produced by none,
all, only, new and nth satisfy it, and include, exclude, and, or, xor,
difference and the two iteration steps preserve it. -/
theorem c6_bitmap_invariant (bits count : Nat) (hw : uintBits count = some bits) :
    BitmapInv count BitmapSet.noneSet ∧
      (∀ m, BitmapSet.all bits count = some m → BitmapInv count m) ∧
      (∀ i m, i < count → BitmapSet.only bits i = some m → BitmapInv count m) ∧
      (∀ x i m, BitmapInv count x → i < count → BitmapSet.includeVal bits x i = some m →
        BitmapInv count m) ∧
      (∀ x i m, BitmapInv count x → BitmapSet.excludeVal bits x i = some m →
        BitmapInv count m) ∧
      (∀ x y, BitmapInv count x → BitmapInv count y → BitmapInv count (BitmapSet.and x y)) ∧
      (∀ x y, BitmapInv count x → BitmapInv count y → BitmapInv count (BitmapSet.or x y)) ∧
      (∀ x y, BitmapInv count x → BitmapInv count y → BitmapInv count (BitmapSet.xor x y)) ∧
      (∀ x y, BitmapInv count x → BitmapInv count (BitmapSet.diff bits x y)) ∧
      (∀ (K : Type) (T : FiniteInst K) (f : K → Bool) (m : Nat), T.count = count →
        BitmapSet.new bits T f = some m → BitmapInv count m) ∧
      (∀ i m, i < 2 ^ count → (bitmapSetFinite bits count).nth i = some m →
        BitmapInv count m) ∧
      (∀ x i x2, BitmapInv count x → BitmapSet.next bits x = some (i, x2) →
        BitmapInv count x2) ∧
      (∀ x i x2, BitmapInv count x → BitmapSet.nextBack bits x = some (i, x2) →
        BitmapInv count x2) := by
  have hpow : 0 < 2 ^ count := Nat.pos_pow_of_pos _ (by norm_num)
  refine ⟨hpow, fun m h => ?_, fun i m hi h => one_at_lt_pow hi h,
    fun x i m hx hi h => ?_, fun x i m hx h => ?_,
    fun x y hx _ => and_lt_pow hx, fun x y hx hy => Nat.or_lt_two_pow hx hy,
    fun x y hx hy => Nat.xor_lt_two_pow hx hy, fun x y hx => and_lt_pow hx,
    fun _ T f m hTc h => ?_, fun i m hi h => ?_,
    fun x i x2 hx h => ?_, fun x i x2 hx h => ?_⟩
  · simp only [BitmapSet.all, Unsigned.ones] at h
    split_ifs at h <;> cases h
    · exact hpow
    · show 2 ^ count - 1 < 2 ^ count
      omega
  · simp only [BitmapSet.includeVal, Option.map_eq_some'] at h
    obtain ⟨mask, hmask, rfl⟩ := h
    exact Nat.or_lt_two_pow hx (one_at_lt_pow hi hmask)
  · simp only [BitmapSet.excludeVal, Option.map_eq_some'] at h
    obtain ⟨mask, _, rfl⟩ := h
    exact and_lt_pow hx
  · subst hTc
    exact bitmapNewGo_inv (List.range T.count) 0 m
      (fun j hj => List.mem_range.mp hj) hpow h
  · simp only [bitmapSetFinite, if_pos hi] at h
    cases h
    exact Nat.lt_of_le_of_lt (Nat.mod_le _ _) hi
  · simp only [BitmapSet.next] at h
    split at h
    · cases h
    · split at h
      · cases h
      · cases h
        exact and_lt_pow hx
  · simp only [BitmapSet.nextBack] at h
    split at h
    · cases h
    · split at h
      · cases h
      · cases h
        exact and_lt_pow hx

/-- C6 witness: the bool domain (COUNT = 2, backed by u8). -/
theorem c6_witness : BitmapInv 2 BitmapSet.noneSet ∧ BitmapInv 2 3 :=
  ⟨(c6_bitmap_invariant 8 2 (by decide)).1,
    (c6_bitmap_invariant 8 2 (by decide)).2.1 3 (by decide)⟩

/-! Array map lemmas. -/

theorem newGo_spec (T : FiniteInst K) (g : K → V) (hc : Conforms T) :
    ∀ (l : List Nat), (∀ i ∈ l, i < T.count) → ∀ (s0 : List K),
      ∃ ks : List K,
        initGo (newInner T (fun k log => (log ++ [k], g k))) l s0 =
            (s0 ++ ks, ks.map (fun k => some (g k))) ∧
          ks.length = l.length ∧
          (∀ (j i : Nat), l[j]? = some i → ks[j]? = T.nth i) := by
  intro l
  induction l with
  | nil =>
    intro _ s0
    refine ⟨[], by simp [initGo], rfl, fun j i h => by simp at h⟩
  | cons i rest ih =>
    intro hmem s0
    have hic : i < T.count := hmem i (List.mem_cons_self i rest)
    obtain ⟨v, hv, hvi⟩ := hc.nth_inv i hic
    obtain ⟨ks, hks, hlen, hpos⟩ :=
      ih (fun j hj => hmem j (List.mem_cons_of_mem i hj)) (s0 ++ [v])
    refine ⟨v :: ks, ?_, by simp [hlen], fun j i2 hj => ?_⟩
    · simp only [initGo, newInner, hv, hks]
      simp [List.append_assoc]
    · match j with
      | 0 =>
        simp only [List.getElem?_cons_zero, Option.some_inj] at hj ⊢
        rw [hj] at hv
        exact hv.symm
      | j + 1 =>
        simp only [List.getElem?_cons_succ] at hj ⊢
        exact hpos j i2 hj

/-- C7: ArrayMap::new(f) invokes f once per key in ascending index
order nth(0), ..., nth(COUNT-1) — stated through an effectful f that
logs each key it is invoked on, so the final log is the side-effect
order — and the resulting map reads back f applied to every key. -/
theorem c7_arraymap_new (T : FiniteInst K) (g : K → V) (hc : Conforms T) :
    (ArrayMap.new T (fun k log => (log ++ [k], g k)) ([] : List K)).1.length = T.count ∧
      (∀ i, i < T.count →
        (ArrayMap.new T (fun k log => (log ++ [k], g k)) ([] : List K)).1[i]? = T.nth i) ∧
      (∀ k : K, ∃! j, j < T.count ∧
        (ArrayMap.new T (fun k2 log => (log ++ [k2], g k2)) ([] : List K)).1[j]? = some k) ∧
      (∀ k : K,
        ArrayMap.get T (ArrayMap.new T (fun k2 log => (log ++ [k2], g k2)) ([] : List K)).2 k =
          some (some (g k))) := by
  obtain ⟨ks, hks, hlen, hpos⟩ :=
    newGo_spec T g hc (List.range T.count) (fun j hj => List.mem_range.mp hj) []
  have hnew : ArrayMap.new T (fun k log => (log ++ [k], g k)) ([] : List K) =
      (ks, ks.map (fun k => some (g k))) := by
    simp only [ArrayMap.new, array_init, hks, List.nil_append]
  have hkslen : ks.length = T.count := by
    rw [hlen, List.length_range]
  have hkspos : ∀ i, i < T.count → ks[i]? = T.nth i := by
    intro i hi
    exact hpos i i (by simp [List.getElem?_range hi])
  refine ⟨by rw [hnew, hkslen], fun i hi => by rw [hnew]; exact hkspos i hi,
    fun k => ?_, fun k => ?_⟩
  · refine ⟨T.index_of k, ⟨hc.index_lt k, ?_⟩, ?_⟩
    · rw [hnew]
      rw [hkspos _ (hc.index_lt k)]
      exact hc.nth_index k
    · rintro j ⟨hj, hjk⟩
      rw [hnew] at hjk
      rw [hkspos j hj] at hjk
      obtain ⟨v, hv, hvi⟩ := hc.nth_inv j hj
      rw [hv] at hjk
      cases hjk
      exact hvi.symm
  · rw [hnew]
    simp only [ArrayMap.get, List.getElem?_map]
    rw [hkspos _ (hc.index_lt k), hc.nth_index k]
    rfl

/-- C7 witness: the bool key domain with a negating initialiser. -/
theorem c7_witness :
    (ArrayMap.new boolFinite (fun k log => (log ++ [k], !k)) ([] : List Bool)).1.length =
        boolFinite.count ∧
      ArrayMap.get boolFinite
          (ArrayMap.new boolFinite (fun k log => (log ++ [k], !k)) ([] : List Bool)).2 true =
        some (some false) :=
  ⟨(c7_arraymap_new boolFinite (fun b => !b) boolFinite_conforms).1,
    (c7_arraymap_new boolFinite (fun b => !b) boolFinite_conforms).2.2.2 true⟩

/-- C8: after map[k] = x, reading k gives x and every other key reads
its previous value. -/
theorem c8_arraymap_set_get (T : FiniteInst K) (m : List V) (k : K) (x : V)
    (hc : Conforms T) (hlen : m.length = T.count) :
    ArrayMap.get T (ArrayMap.set T m k x) k = some x ∧
      ∀ k2, k2 ≠ k → ArrayMap.get T (ArrayMap.set T m k x) k2 = ArrayMap.get T m k2 := by
  constructor
  · have hidx : T.index_of k < m.length := by
      rw [hlen]
      exact hc.index_lt k
    simp [ArrayMap.get, ArrayMap.set, List.getElem?_set_self, hidx]
  · intro k2 hne
    have hne2 : T.index_of k ≠ T.index_of k2 := fun he => hne (hc.index_inj he).symm
    simp [ArrayMap.get, ArrayMap.set, List.getElem?_set_ne hne2]

/-- C8 witness: a two-slot map over bool. -/
theorem c8_witness :
    ArrayMap.get boolFinite (ArrayMap.set boolFinite [5, 7] true 9) true = some 9 ∧
      ArrayMap.get boolFinite (ArrayMap.set boolFinite [5, 7] true 9) false =
        ArrayMap.get boolFinite [5, 7] false :=
  ⟨(c8_arraymap_set_get boolFinite [5, 7] true 9 boolFinite_conforms rfl).1,
    (c8_arraymap_set_get boolFinite [5, 7] true 9 boolFinite_conforms rfl).2 false
      (by decide)⟩

end Cantor
